import Mathlib

/-!
Shallow embedding of `src/backend/Main.py` (CodeVisualiser backend).

The backend runs untrusted Python source inside a worker process under a
`sys.settrace` tracer.  The tracer records one `ExecutionStep` per line
event (line number, source text of that line, filtered and truncated local
variables, and the output written to the buffered stdout since the previous
callback) and, on return/exception events, drains the remaining buffered
output into the last recorded step.  The worker sends `(steps, error_msg)`
over a pipe; the host `run_code` enforces a timeout, handles worker death,
and optionally selects a single step.

Python strings are modelled as `List Char` (Python slicing is per
character), the output buffer (`io.StringIO` plus `last_output_pos`) as an
`OutBuf`, and a worker execution as a list of `Action`s — interleaved
buffer writes (the restricted `print`) and tracer callbacks — followed by
an optional escaping `Fault` handled by the `except` clause of
`run_in_process`.
-/

namespace CodeVis

/-- Python strings, modelled per character. -/
abbrev Str := List Char

/-- Pydantic model `ExecutionStep` (Main.py lines 31-35): one recorded
observation of execution progress. `variables` keeps the dict as an
association list of name and truncated repr. -/
structure ExecutionStep where
  line : Int
  code : Str
  vars : List (String × Str)
  output : Option Str
deriving DecidableEq

/-- Pydantic model `CodeResponse` (Main.py lines 38-40). -/
structure CodeResponse where
  steps : List ExecutionStep
  error : Option String
deriving DecidableEq

/-- The output multiplexer: `io.StringIO` contents together with the
tracer's `last_output_pos` cursor (Main.py lines 46, 49). -/
structure OutBuf where
  content : Str
  pos : Nat
deriving DecidableEq

/-- A write to the buffer: the restricted `print` appends to
`output_buffer` (Main.py line 110). -/
def OutBuf.write (b : OutBuf) (s : Str) : OutBuf :=
  { b with content := b.content ++ s }

/-- A drain: `current_value = output_buffer.getvalue()`,
`new_output = current_value[last_output_pos:]`,
`last_output_pos = len(current_value)` (Main.py lines 139-141, 149-151). -/
def OutBuf.drain (b : OutBuf) : Str × OutBuf :=
  (b.content.drop b.pos, { b with pos := b.content.length })

/-- An event delivered to `tracer` for a frame of the executed source:
a `line` event carries `frame.f_lineno` and `frame.f_locals` (names with
the untruncated `repr` of each value); `ret` and `exc` are the
`"return"` and `"exception"` events. -/
inductive TraceEvent where
  | line (lineno : Int) (locals : List (String × Str))
  | ret
  | exc
deriving DecidableEq

/-- One step of worker activity: user code writing to the output buffer,
or a tracer callback. -/
inductive Action where
  | write (s : Str)
  | ev (e : TraceEvent)
deriving DecidableEq

/-- An unhandled exception escaping `exec`: `type(e).__name__` and
`str(e)`. -/
structure Fault where
  kind : String
  msg : String
deriving DecidableEq

/-- A worker execution, abstracting the evaluator: the interleaved writes
and tracer callbacks it produces, plus the fault (if any) that escapes
`exec` into the `except` clause. -/
structure ExecTrace where
  actions : List Action
  fault : Option Fault
deriving DecidableEq

/-- Worker-local tracer state: the accumulated `steps` list and the output
buffer with its drain cursor. -/
structure TracerState where
  steps : List ExecutionStep
  buf : OutBuf
deriving DecidableEq

/-- The variable filter of the dict comprehension (Main.py lines 133-138):
drop names that both start and end with a double underscore, and drop
`output_buffer` and `__builtins__`. -/
def keepVar (k : String) : Bool :=
  !(k.startsWith "__" && k.endsWith "__") &&
    k != "output_buffer" && k != "__builtins__"

/-- The dict comprehension `{k: repr(v)[:200] for k, v in
frame.f_locals.items() if ...}` (Main.py lines 133-138): filter the
bindings and truncate each repr to 200 characters. -/
def filterVars (locals : List (String × Str)) : List (String × Str) :=
  (locals.filter fun p => keepVar p.1).map fun p => (p.1, p.2.take 200)

/-- Line lookup `code_lines[lineno - 1] if 0 <= lineno - 1 <
len(code_lines) else ""` (Main.py line 131). -/
def lineText (codeLines : List Str) (lineno : Int) : Str :=
  if 0 ≤ lineno - 1 ∧ lineno - 1 < (codeLines.length : Int) then
    codeLines.getD (lineno - 1).toNat []
  else []

/-- The update `steps[-1].output = (steps[-1].output or "") +
(new_output or "")` guarded by `if steps:` (Main.py lines 152-153, also the
`except` clause at line 166): append `out` to the last step's output,
treating a missing output as empty; on an empty list do nothing. -/
def appendToLastOutput : List ExecutionStep → Str → List ExecutionStep
  | [], _ => []
  | [s], out => [{ s with output := some (s.output.getD [] ++ out) }]
  | s :: t :: rest, out => s :: appendToLastOutput (t :: rest) out

/-- The `tracer` callback (Main.py lines 125-155) for events of frames
whose filename is `"<string>"`.  On a `line` event it resolves the source
line, filters and truncates the frame's locals, drains the pending output
increment and appends a new `ExecutionStep` whose `output` is `None` when
the increment is empty.  On `return`/`exception` it drains the pending
increment and appends it to the last step's output, if any step exists. -/
def tracer (codeLines : List Str) (st : TracerState) (e : TraceEvent) :
    TracerState :=
  match e with
  | .line lineno locals =>
      let d := st.buf.drain
      { steps := st.steps ++ [{
          line := lineno
          code := lineText codeLines lineno
          vars := filterVars locals
          output := if d.1 = [] then none else some d.1 }]
        buf := d.2 }
  | .ret | .exc =>
      let d := st.buf.drain
      { steps := appendToLastOutput st.steps d.1
        buf := d.2 }

/-- Initial worker state: `steps = []`, empty buffer, `last_output_pos = 0`
(Main.py lines 45-49). -/
def initState : TracerState := ⟨[], ⟨[], 0⟩⟩

/-- One worker action applied to the tracer state: a buffered write, or a
tracer callback. -/
def stepAction (codeLines : List Str) (st : TracerState) (a : Action) :
    TracerState :=
  match a with
  | .write s => { st with buf := st.buf.write s }
  | .ev e => tracer codeLines st e

/-- The tracer state after the whole action sequence, from the initial
state. -/
def runActions (codeLines : List Str) (actions : List Action) : TracerState :=
  actions.foldl (stepAction codeLines) initState

/-- The error note appended to the last step on an unhandled fault:
`f"\nError: {type(e).__name__} - {str(e)}"` (Main.py line 166). -/
def errorNote (f : Fault) : Str :=
  ("\nError: " ++ f.kind ++ " - " ++ f.msg).data

/-- The top-level error message on an unhandled fault with no recorded
steps: `f"{type(e).__name__} - {str(e)}"` (Main.py line 168). -/
def faultTopError (f : Fault) : String :=
  f.kind ++ " - " ++ f.msg

/-- The worker body `run_in_process` (Main.py lines 44-171), as the pair
sent over the pipe: run the action sequence under the tracer; if a fault escapes `exec`,
append the error note to the last step when steps exist, otherwise set the
top-level error message. -/
def run_in_process (codeLines : List Str) (tr : ExecTrace) :
    List ExecutionStep × Option String :=
  let st := runActions codeLines tr.actions
  match tr.fault with
  | none => (st.steps, none)
  | some f =>
      match st.steps with
      | [] => ([], some (faultTopError f))
      | s :: rest => (appendToLastOutput (s :: rest) (errorNote f), none)

/-- What the host observes of the worker: still alive at the timeout,
dead with the channel closed before a result (`EOFError` on `recv`), or
finished with a `(steps, error_msg)` message. -/
inductive WorkerOutcome where
  | timedOut
  | crashed
  | finished (steps : List ExecutionStep) (errorMsg : Option String)
deriving DecidableEq

/-- Default step used only to express Python's in-range indexing
`steps[step]` total. -/
def dStep : ExecutionStep := ⟨0, [], [], none⟩

/-- The host `run_code` (Main.py lines 174-196): timeout yields
`"Execution timed out"`, a dead worker yields
`"Execution failed unexpectedly"`, otherwise the worker's result is
relayed, with optional step selection `if 0 <= step < len(steps)` taking
the singleton `[steps[step]]` and anything else the out-of-range error. -/
def run_code (outcome : WorkerOutcome) (step : Option Int) : CodeResponse :=
  match outcome with
  | .timedOut => ⟨[], some "Execution timed out"⟩
  | .crashed => ⟨[], some "Execution failed unexpectedly"⟩
  | .finished steps errorMsg =>
      match step with
      | none => ⟨steps, errorMsg⟩
      | some k =>
          if 0 ≤ k ∧ k < (steps.length : Int) then
            ⟨[steps.getD k.toNat dStep], errorMsg⟩
          else
            ⟨[], some ("Step " ++ toString k ++ " out of range")⟩

/-- The line numbers of the line events of an action sequence, in order. -/
def lineNosOf : List Action → List Int
  | [] => []
  | .ev (.line n _) :: rest => n :: lineNosOf rest
  | _ :: rest => lineNosOf rest

/-- The concatenation of everything the action sequence writes to the
output buffer: the total output the program produced. -/
def writesOf : List Action → Str
  | [] => []
  | .write s :: rest => s ++ writesOf rest
  | _ :: rest => writesOf rest

/-- The concatenation of the steps' output fields, a missing output
contributing nothing. -/
def outputsConcat : List ExecutionStep → Str
  | [] => []
  | s :: rest => s.output.getD [] ++ outputsConcat rest

/-- Whether an action is a `return`/`exception` callback. -/
def isTermEv : Action → Bool
  | .ev .ret => true
  | .ev .exc => true
  | _ => false

/-- Whether an action is a line-event callback. -/
def isLineEv : Action → Bool
  | .ev (.line _ _) => true
  | _ => false

/-- Whether an action is any tracer callback. -/
def isEv : Action → Bool
  | .ev _ => true
  | _ => false

/-- No `return`/`exception` callback occurs before the first line event.
Every real evaluator trace satisfies this: a frame's first event is a line
event, before its return or an exception propagating through it. -/
def noEarlyTerm : List Action → Bool
  | [] => true
  | a :: rest => if isLineEv a then true else !isTermEv a && noEarlyTerm rest

/-- The action sequence is empty or ends with a tracer callback.  Every
real evaluator trace satisfies this: the module frame's return (or the
escaping exception) fires a final callback after the last write. -/
def endsWithEvent : List Action → Bool
  | [] => true
  | [a] => isEv a
  | _ :: a :: rest => endsWithEvent (a :: rest)

/-- A buffer operation in isolation: a user write (the restricted `print`)
or a tracer drain. -/
inductive BufOp where
  | write (s : Str)
  | drain
deriving DecidableEq

/-- Run a sequence of buffer operations, collecting the drained increments
in order. -/
def runBufOps : OutBuf → List BufOp → OutBuf × List Str
  | b, [] => (b, [])
  | b, .write s :: rest => runBufOps (b.write s) rest
  | b, .drain :: rest =>
      let d := b.drain
      let r := runBufOps d.2 rest
      (r.1, d.1 :: r.2)

/-- Total content written by a buffer-operation sequence. -/
def bufWritesOf : List BufOp → Str
  | [] => []
  | .write s :: rest => s ++ bufWritesOf rest
  | .drain :: rest => bufWritesOf rest

/-- Concatenation of a list of strings. -/
def concatStrs : List Str → Str
  | [] => []
  | s :: rest => s ++ concatStrs rest

/-- Tracer-state invariant: the drain cursor stays inside the buffer, and
the steps' outputs concatenated with the still-pending increment make up
exactly the buffer contents. -/
def okState (st : TracerState) : Prop :=
  st.buf.pos ≤ st.buf.content.length ∧
  outputsConcat st.steps ++ st.buf.content.drop st.buf.pos = st.buf.content

/-! ## Helper lemmas -/

theorem appendToLastOutput_concat (last : ExecutionStep) (out : Str) :
    ∀ l : List ExecutionStep,
      appendToLastOutput (l ++ [last]) out
        = l ++ [{ last with output := some (last.output.getD [] ++ out) }]
  | [] => rfl
  | [a] => rfl
  | a :: b :: l => by
      have ih := appendToLastOutput_concat last out (b :: l)
      show a :: appendToLastOutput ((b :: l) ++ [last]) out = _
      rw [ih]
      simp

theorem appendToLastOutput_map_line :
    ∀ (l : List ExecutionStep) (out : Str),
      (appendToLastOutput l out).map (fun s => s.line)
        = l.map (fun s => s.line)
  | [], _ => rfl
  | [_], _ => rfl
  | s :: t :: rest, out => by
      show (s :: appendToLastOutput (t :: rest) out).map _ = _
      rw [List.map_cons, appendToLastOutput_map_line (t :: rest) out, List.map_cons]
      simp

theorem appendToLastOutput_ne_nil :
    ∀ (l : List ExecutionStep) (out : Str), l ≠ [] →
      appendToLastOutput l out ≠ []
  | [], _, h => absurd rfl h
  | [_], _, _ => by simp [appendToLastOutput]
  | _ :: _ :: _, _, _ => by
      show _ :: _ ≠ []
      simp

theorem outputsConcat_append (l1 l2 : List ExecutionStep) :
    outputsConcat (l1 ++ l2) = outputsConcat l1 ++ outputsConcat l2 := by
  induction l1 with
  | nil => rfl
  | cons s rest ih => simp [outputsConcat, ih]

theorem outputsConcat_appendToLastOutput :
    ∀ (l : List ExecutionStep) (out : Str), l ≠ [] →
      outputsConcat (appendToLastOutput l out) = outputsConcat l ++ out
  | [], _, h => absurd rfl h
  | [s], out, _ => by simp [appendToLastOutput, outputsConcat]
  | s :: t :: rest, out, _ => by
      show outputsConcat (s :: appendToLastOutput (t :: rest) out) = _
      rw [outputsConcat, outputsConcat_appendToLastOutput (t :: rest) out (by simp)]
      simp [outputsConcat, List.append_assoc]

theorem stepAction_steps_ne_nil (codeLines : List Str) (st : TracerState)
    (a : Action) (h : st.steps ≠ []) :
    (stepAction codeLines st a).steps ≠ [] := by
  cases a with
  | write s => exact h
  | ev e =>
      cases e with
      | line n ls => simp [stepAction, tracer]
      | ret => exact appendToLastOutput_ne_nil _ _ h
      | exc => exact appendToLastOutput_ne_nil _ _ h

theorem stepAction_okState (codeLines : List Str) (st : TracerState)
    (a : Action) (hok : okState st)
    (hne : st.steps ≠ [] ∨ isTermEv a = false) :
    okState (stepAction codeLines st a) := by
  obtain ⟨hpos, hpart⟩ := hok
  cases a with
  | write s =>
      constructor
      · simp only [stepAction, OutBuf.write, List.length_append]
        exact le_trans hpos (Nat.le_add_right _ _)
      · simp only [stepAction, OutBuf.write]
        have h0 : st.buf.pos - st.buf.content.length = 0 :=
          Nat.sub_eq_zero_of_le hpos
        rw [List.drop_append_eq_append_drop, h0, List.drop_zero,
          ← List.append_assoc, hpart]
  | ev e =>
      cases e with
      | line n ls =>
          constructor
          · simp [stepAction, tracer, OutBuf.drain]
          · simp only [stepAction, tracer, OutBuf.drain]
            rw [List.drop_length, List.append_nil, outputsConcat_append]
            by_cases h : st.buf.content.drop st.buf.pos = [] <;>
              simpa [outputsConcat, h] using hpart
      | ret =>
          have hs : st.steps ≠ [] := by
            rcases hne with h | h
            · exact h
            · simp [isTermEv] at h
          constructor
          · simp [stepAction, tracer, OutBuf.drain]
          · simp only [stepAction, tracer, OutBuf.drain]
            rw [List.drop_length, List.append_nil,
              outputsConcat_appendToLastOutput _ _ hs, hpart]
      | exc =>
          have hs : st.steps ≠ [] := by
            rcases hne with h | h
            · exact h
            · simp [isTermEv] at h
          constructor
          · simp [stepAction, tracer, OutBuf.drain]
          · simp only [stepAction, tracer, OutBuf.drain]
            rw [List.drop_length, List.append_nil,
              outputsConcat_appendToLastOutput _ _ hs, hpart]

theorem foldl_okState (codeLines : List Str) :
    ∀ (actions : List Action) (st : TracerState), okState st →
      (st.steps ≠ [] ∨ noEarlyTerm actions = true) →
      okState (actions.foldl (stepAction codeLines) st)
  | [], _, hok, _ => hok
  | a :: rest, st, hok, hwf => by
      rw [List.foldl_cons]
      by_cases hs : st.steps = []
      · have hterm : noEarlyTerm (a :: rest) = true :=
          hwf.resolve_left fun hne => hne hs
        cases a with
        | write s =>
            have hrest : noEarlyTerm rest = true := by
              simpa [noEarlyTerm, isLineEv, isTermEv] using hterm
            refine foldl_okState codeLines rest _
              (stepAction_okState _ _ _ ⟨hok.1, hok.2⟩ (Or.inr rfl)) (Or.inr hrest)
        | ev e =>
            cases e with
            | line n ls =>
                refine foldl_okState codeLines rest _
                  (stepAction_okState _ _ _ ⟨hok.1, hok.2⟩ (Or.inr rfl)) ?_
                exact Or.inl (by simp [stepAction, tracer])
            | ret => simp [noEarlyTerm, isLineEv, isTermEv] at hterm
            | exc => simp [noEarlyTerm, isLineEv, isTermEv] at hterm
      · refine foldl_okState codeLines rest _
          (stepAction_okState _ _ _ ⟨hok.1, hok.2⟩ (Or.inl hs)) ?_
        exact Or.inl (stepAction_steps_ne_nil _ _ _ hs)

theorem foldl_buffer (codeLines : List Str) :
    ∀ (actions : List Action) (st : TracerState),
      (actions.foldl (stepAction codeLines) st).buf.content
        = st.buf.content ++ writesOf actions
  | [], st => by simp [writesOf]
  | .write s :: rest, st => by
      rw [List.foldl_cons, foldl_buffer codeLines rest]
      simp [stepAction, OutBuf.write, writesOf]
  | .ev e :: rest, st => by
      rw [List.foldl_cons, foldl_buffer codeLines rest]
      cases e <;> simp [stepAction, tracer, OutBuf.drain, writesOf]

theorem foldl_map_line (codeLines : List Str) :
    ∀ (actions : List Action) (st : TracerState),
      ((actions.foldl (stepAction codeLines) st).steps).map (fun s => s.line)
        = st.steps.map (fun s => s.line) ++ lineNosOf actions
  | [], st => by simp [lineNosOf]
  | .write s :: rest, st => by
      rw [List.foldl_cons, foldl_map_line codeLines rest]
      simp [stepAction, lineNosOf]
  | .ev (.line n ls) :: rest, st => by
      rw [List.foldl_cons, foldl_map_line codeLines rest]
      simp [stepAction, tracer, lineNosOf]
  | .ev .ret :: rest, st => by
      rw [List.foldl_cons, foldl_map_line codeLines rest]
      simp only [stepAction, tracer]
      rw [appendToLastOutput_map_line]
      simp [lineNosOf]
  | .ev .exc :: rest, st => by
      rw [List.foldl_cons, foldl_map_line codeLines rest]
      simp only [stepAction, tracer]
      rw [appendToLastOutput_map_line]
      simp [lineNosOf]

theorem foldl_drained (codeLines : List Str) :
    ∀ (actions : List Action) (st : TracerState), endsWithEvent actions = true →
      actions = [] ∨
        (actions.foldl (stepAction codeLines) st).buf.pos
          = (actions.foldl (stepAction codeLines) st).buf.content.length
  | [], _, _ => Or.inl rfl
  | [a], st, h => by
      right
      rw [List.foldl_cons, List.foldl_nil]
      have hev : isEv a = true := h
      cases a with
      | write s => simp [isEv] at hev
      | ev e => cases e <;> simp [stepAction, tracer, OutBuf.drain]
  | a :: b :: rest, st, h => by
      have h' : endsWithEvent (b :: rest) = true := h
      rcases foldl_drained codeLines (b :: rest) (stepAction codeLines st a) h'
        with h0 | h0
      · exact absurd h0 (by simp)
      · right
        rw [List.foldl_cons]
        exact h0

/-! ## Claim theorems -/

/-- C1: for every fault-free execution trace (no event before the first
line event is a return/exception callback, and the trace ends with a
callback — both true of every real evaluator trace), the recorded result
has no error, contains exactly one step per line event, each step's line
field is the line number of its line event, and the concatenation of all
steps' output fields is the total output written by the program. -/
theorem c1_faultfree_trace (codeLines : List Str) (actions : List Action)
    (h1 : noEarlyTerm actions = true) (h2 : endsWithEvent actions = true) :
    (run_in_process codeLines ⟨actions, none⟩).2 = none ∧
    (run_in_process codeLines ⟨actions, none⟩).1.map (fun s => s.line)
      = lineNosOf actions ∧
    (run_in_process codeLines ⟨actions, none⟩).1.length
      = (lineNosOf actions).length ∧
    outputsConcat (run_in_process codeLines ⟨actions, none⟩).1
      = writesOf actions := by
  have hres : run_in_process codeLines ⟨actions, none⟩
      = ((runActions codeLines actions).steps, none) := rfl
  rw [hres]
  have hmap : (runActions codeLines actions).steps.map (fun s => s.line)
      = lineNosOf actions := by
    simpa [runActions, initState] using foldl_map_line codeLines actions initState
  refine ⟨rfl, hmap, ?_, ?_⟩
  · have hlen := congrArg List.length hmap
    simpa using hlen
  · have hok := foldl_okState codeLines actions initState
      ⟨Nat.le_refl 0, rfl⟩ (Or.inr h1)
    have hbuf := foldl_buffer codeLines actions initState
    rcases foldl_drained codeLines actions initState h2 with hnil | hdr
    · subst hnil
      rfl
    · have hpart := hok.2
      rw [runActions] at *
      rw [hdr, List.drop_length, List.append_nil] at hpart
      rw [hpart, hbuf]
      simp [initState]

theorem c1_faultfree_trace_witness :
    noEarlyTerm [Action.ev (TraceEvent.line 1 []),
      Action.write ['h', 'i'],
      Action.ev (TraceEvent.line 2 [("x", ['1'])]),
      Action.ev TraceEvent.ret] = true ∧
    endsWithEvent [Action.ev (TraceEvent.line 1 []),
      Action.write ['h', 'i'],
      Action.ev (TraceEvent.line 2 [("x", ['1'])]),
      Action.ev TraceEvent.ret] = true ∧
    ((run_in_process [] ⟨[Action.ev (TraceEvent.line 1 []),
        Action.write ['h', 'i'],
        Action.ev (TraceEvent.line 2 [("x", ['1'])]),
        Action.ev TraceEvent.ret], none⟩).2 = none ∧
      (run_in_process [] ⟨[Action.ev (TraceEvent.line 1 []),
        Action.write ['h', 'i'],
        Action.ev (TraceEvent.line 2 [("x", ['1'])]),
        Action.ev TraceEvent.ret], none⟩).1.map (fun s => s.line)
        = lineNosOf [Action.ev (TraceEvent.line 1 []),
            Action.write ['h', 'i'],
            Action.ev (TraceEvent.line 2 [("x", ['1'])]),
            Action.ev TraceEvent.ret] ∧
      (run_in_process [] ⟨[Action.ev (TraceEvent.line 1 []),
        Action.write ['h', 'i'],
        Action.ev (TraceEvent.line 2 [("x", ['1'])]),
        Action.ev TraceEvent.ret], none⟩).1.length
        = (lineNosOf [Action.ev (TraceEvent.line 1 []),
            Action.write ['h', 'i'],
            Action.ev (TraceEvent.line 2 [("x", ['1'])]),
            Action.ev TraceEvent.ret]).length ∧
      outputsConcat (run_in_process [] ⟨[Action.ev (TraceEvent.line 1 []),
        Action.write ['h', 'i'],
        Action.ev (TraceEvent.line 2 [("x", ['1'])]),
        Action.ev TraceEvent.ret], none⟩).1
        = writesOf [Action.ev (TraceEvent.line 1 []),
            Action.write ['h', 'i'],
            Action.ev (TraceEvent.line 2 [("x", ['1'])]),
            Action.ev TraceEvent.ret]) :=
  ⟨by decide, by decide, c1_faultfree_trace [] _ (by decide) (by decide)⟩

/-- C2: when the worker is still alive at the wall-clock timeout the host
returns empty steps and the error "Execution timed out", whatever step was
requested. -/
theorem c2_timeout (step : Option Int) :
    run_code WorkerOutcome.timedOut step
      = ⟨[], some "Execution timed out"⟩ := rfl

/-- C3: when the worker dies or its channel closes before a result is
received the host returns empty steps and the error
"Execution failed unexpectedly", whatever step was requested. -/
theorem c3_worker_crash (step : Option Int) :
    run_code WorkerOutcome.crashed step
      = ⟨[], some "Execution failed unexpectedly"⟩ := rfl

/-- C4: for a recorded result with M steps and a requested index k, the
host returns the singleton holding step k when 0 ≤ k < M, and otherwise
empty steps with the error "Step k out of range". -/
theorem c4_step_selection (steps : List ExecutionStep) (err : Option String)
    (k : Int) :
    (0 ≤ k ∧ k < (steps.length : Int) →
      run_code (WorkerOutcome.finished steps err) (some k)
        = ⟨[steps.getD k.toNat dStep], err⟩) ∧
    (¬(0 ≤ k ∧ k < (steps.length : Int)) →
      run_code (WorkerOutcome.finished steps err) (some k)
        = ⟨[], some ("Step " ++ toString k ++ " out of range")⟩) := by
  constructor <;> intro h <;> simp [run_code, h]

theorem c4_step_selection_witness :
    run_code (WorkerOutcome.finished [dStep] none) (some 0)
      = ⟨[dStep], none⟩ ∧
    run_code (WorkerOutcome.finished [dStep] none) (some 1)
      = ⟨[], some ("Step " ++ toString (1 : Int) ++ " out of range")⟩ := by
  constructor
  · exact ((c4_step_selection [dStep] none 0).1 (by decide)).trans (by decide)
  · exact (c4_step_selection [dStep] none 1).2 (by decide)

/-- The shape of the worker result when a fault escapes `exec` after at
least one recorded step. -/
theorem run_in_process_fault (codeLines : List Str) (tr : ExecTrace)
    (f : Fault) (hf : tr.fault = some f)
    (hs : (runActions codeLines tr.actions).steps ≠ []) :
    run_in_process codeLines tr
      = (appendToLastOutput (runActions codeLines tr.actions).steps
          (errorNote f), none) := by
  unfold run_in_process
  rw [hf]
  dsimp only
  cases h : (runActions codeLines tr.actions).steps with
  | nil => exact absurd h hs
  | cons s rest => rfl

/-- C5 counterexample: the claimed error format "kind: message" does not
match the code: a ValueError with message "boom" and no recorded steps
yields the top-level error "ValueError - boom" (hyphen separator), not
"ValueError: boom". -/
theorem c5_fault_format_counterexample :
    (run_in_process [] ⟨[], some ⟨"ValueError", "boom"⟩⟩).2
      = some "ValueError - boom" ∧
    some "ValueError - boom" ≠ some ("ValueError" ++ ": " ++ "boom") := by
  constructor
  · rfl
  · decide

/-- C5 (amended): on an unhandled fault with zero recorded steps the
worker result has empty steps and the top-level error is exactly the
fault's kind, a space-hyphen-space separator, and the message. -/
theorem c5_fault_format_amended (codeLines : List Str) (tr : ExecTrace)
    (f : Fault) (hf : tr.fault = some f)
    (hs : (runActions codeLines tr.actions).steps = []) :
    run_in_process codeLines tr
      = ([], some (f.kind ++ " - " ++ f.msg)) := by
  unfold run_in_process
  rw [hf]
  dsimp only
  rw [hs]
  rfl

theorem c5_fault_format_amended_witness :
    (⟨[], some ⟨"E", "m"⟩⟩ : ExecTrace).fault = some ⟨"E", "m"⟩ ∧
    (runActions [] ([] : List Action)).steps = [] ∧
    run_in_process [] ⟨[], some ⟨"E", "m"⟩⟩
      = ([], some ((Fault.mk "E" "m").kind ++ " - " ++ (Fault.mk "E" "m").msg)) :=
  ⟨rfl, rfl, c5_fault_format_amended [] _ _ rfl rfl⟩

/-- C6: when a fault escapes `exec` after at least one recorded step, the
formatted error note is appended to the last step's output, every earlier
step is preserved unchanged, and no top-level error is set. -/
theorem c6_fault_appended (codeLines : List Str) (tr : ExecTrace)
    (f : Fault) (hf : tr.fault = some f)
    (pre : List ExecutionStep) (last : ExecutionStep)
    (hs : (runActions codeLines tr.actions).steps = pre ++ [last]) :
    run_in_process codeLines tr
      = (pre ++ [{ last with
          output := some (last.output.getD [] ++ errorNote f) }], none) := by
  rw [run_in_process_fault codeLines tr f hf (by rw [hs]; simp), hs,
    appendToLastOutput_concat]

theorem c6_fault_appended_witness :
    (⟨[Action.ev (TraceEvent.line 1 [])], some ⟨"E", "m"⟩⟩ : ExecTrace).fault
      = some ⟨"E", "m"⟩ ∧
    (runActions [] [Action.ev (TraceEvent.line 1 [])]).steps
      = [] ++ [⟨1, [], [], none⟩] ∧
    run_in_process [] ⟨[Action.ev (TraceEvent.line 1 [])], some ⟨"E", "m"⟩⟩
      = ([] ++ [{ (⟨1, [], [], none⟩ : ExecutionStep) with
          output := some ((Option.none).getD [] ++ errorNote ⟨"E", "m"⟩) }],
        none) := by
  refine ⟨rfl, by decide, ?_⟩
  exact c6_fault_appended [] _ _ rfl [] _ (by decide)

/-- C7: every binding captured at a line event that passes the variable
filter is recorded with its representation truncated to the 200-character
cap: the recorded value is the first 200 characters, a representation at
least the cap long is cut to exactly 200 characters, and a shorter one is
kept whole. -/
theorem c7_truncation (codeLines : List Str) (st : TracerState)
    (lineno : Int) (locals : List (String × Str)) (k : String) (v : Str)
    (hmem : (k, v) ∈ locals) (hkeep : keepVar k = true) :
    ∃ s : ExecutionStep,
      (tracer codeLines st (TraceEvent.line lineno locals)).steps.getLast?
          = some s ∧
      (k, v.take 200) ∈ s.vars ∧
      (v.take 200).length = min 200 v.length ∧
      (200 ≤ v.length → (v.take 200).length = 200) ∧
      (v.length ≤ 200 → v.take 200 = v) := by
  have h1 : ∃ s : ExecutionStep,
      (tracer codeLines st (TraceEvent.line lineno locals)).steps.getLast?
          = some s ∧ s.vars = filterVars locals :=
    ⟨_, List.getLast?_concat _, rfl⟩
  obtain ⟨s, hlast, hvars⟩ := h1
  refine ⟨s, hlast, ?_, List.length_take 200 v, ?_, ?_⟩
  · rw [hvars]
    unfold filterVars
    exact List.mem_map_of_mem _ (List.mem_filter.mpr ⟨hmem, hkeep⟩)
  · intro h
    rw [List.length_take]
    exact Nat.min_eq_left h
  · intro h
    exact List.take_of_length_le h

theorem c7_truncation_witness :
    ("x", ['a', 'b', 'c']) ∈ [("x", (['a', 'b', 'c'] : Str))] ∧
    keepVar "x" = true ∧
    (∃ s : ExecutionStep,
      (tracer [] initState
          (TraceEvent.line 1 [("x", ['a', 'b', 'c'])])).steps.getLast?
          = some s ∧
      ("x", (['a', 'b', 'c'] : Str).take 200) ∈ s.vars ∧
      ((['a', 'b', 'c'] : Str).take 200).length
          = min 200 (['a', 'b', 'c'] : Str).length ∧
      (200 ≤ (['a', 'b', 'c'] : Str).length →
        ((['a', 'b', 'c'] : Str).take 200).length = 200) ∧
      ((['a', 'b', 'c'] : Str).length ≤ 200 →
        (['a', 'b', 'c'] : Str).take 200 = ['a', 'b', 'c'])) :=
  ⟨by decide, by decide,
    c7_truncation [] initState 1 [("x", ['a', 'b', 'c'])] "x" ['a', 'b', 'c']
      (by decide) (by decide)⟩

/-- The drained increments of a buffer-operation run partition the content
written since the starting cursor. -/
theorem runBufOps_spec :
    ∀ (ops : List BufOp) (b : OutBuf), b.pos ≤ b.content.length →
      (runBufOps b ops).1.pos ≤ (runBufOps b ops).1.content.length ∧
      (runBufOps b ops).1.content = b.content ++ bufWritesOf ops ∧
      concatStrs (runBufOps b ops).2
          ++ (runBufOps b ops).1.content.drop (runBufOps b ops).1.pos
        = b.content.drop b.pos ++ bufWritesOf ops
  | [], b, h => by
      refine ⟨h, by simp [runBufOps, bufWritesOf], ?_⟩
      simp [runBufOps, concatStrs, bufWritesOf]
  | .write s :: rest, b, h => by
      have hle : (b.write s).pos ≤ (b.write s).content.length := by
        simp only [OutBuf.write, List.length_append]
        exact le_trans h (Nat.le_add_right _ _)
      have ih := runBufOps_spec rest (b.write s) hle
      have heq : runBufOps b (.write s :: rest) = runBufOps (b.write s) rest :=
        rfl
      rw [heq]
      refine ⟨ih.1, ?_, ?_⟩
      · rw [ih.2.1]
        simp [OutBuf.write, bufWritesOf]
      · rw [ih.2.2]
        simp only [OutBuf.write, bufWritesOf]
        rw [List.drop_append_eq_append_drop, Nat.sub_eq_zero_of_le h,
          List.drop_zero, List.append_assoc]
  | .drain :: rest, b, h => by
      have hle : b.content.length ≤ b.content.length := Nat.le_refl _
      have ih := runBufOps_spec rest { b with pos := b.content.length } hle
      have heq : runBufOps b (.drain :: rest)
          = ((runBufOps { b with pos := b.content.length } rest).1,
            b.content.drop b.pos
              :: (runBufOps { b with pos := b.content.length } rest).2) := rfl
      rw [heq]
      refine ⟨ih.1, ?_, ?_⟩
      · rw [ih.2.1]
        simp [bufWritesOf]
      · have h3 := ih.2.2
        rw [List.drop_length] at h3
        simp only [concatStrs, List.append_assoc, h3, bufWritesOf]
        simp

/-- C8: the successive drained increments of any write/drain sequence are
contiguous, non-overlapping and order-preserving — their concatenation
followed by the still-pending suffix is the whole buffer content, which is
the concatenation of all writes — and draining twice in a row yields an
empty second increment. -/
theorem c8_drain_partition (ops : List BufOp) :
    concatStrs (runBufOps ⟨[], 0⟩ ops).2
        ++ (runBufOps ⟨[], 0⟩ ops).1.content.drop (runBufOps ⟨[], 0⟩ ops).1.pos
      = (runBufOps ⟨[], 0⟩ ops).1.content ∧
    (runBufOps ⟨[], 0⟩ ops).1.content = bufWritesOf ops ∧
    (∀ b : OutBuf, (b.drain.2.drain).1 = []) := by
  have h := runBufOps_spec ops ⟨[], 0⟩ (Nat.le_refl 0)
  have e1 : concatStrs (runBufOps ⟨[], 0⟩ ops).2
        ++ (runBufOps ⟨[], 0⟩ ops).1.content.drop (runBufOps ⟨[], 0⟩ ops).1.pos
      = bufWritesOf ops := by
    have h3 := h.2.2
    simpa using h3
  have e2 : (runBufOps ⟨[], 0⟩ ops).1.content = bufWritesOf ops := by
    have h2 := h.2.1
    simpa using h2
  refine ⟨by rw [e1, e2], e2, fun b => ?_⟩
  show b.content.drop b.content.length = []
  exact List.drop_length b.content

/-- C9 counterexample: on a terminal event with no recorded step the
drained output is not carried forward with the terminal error — it is
lost. Buffered output "x" followed by a return event and an escaping
ValueError yields empty steps and the error "ValueError - boom", in which
the character of the lost output does not occur. -/
theorem c9_no_step_counterexample :
    run_in_process [] ⟨[Action.write ['x'], Action.ev TraceEvent.ret],
        some ⟨"ValueError", "boom"⟩⟩
      = ([], some "ValueError - boom") ∧
    'x' ∉ "ValueError - boom".data := by
  constructor
  · rfl
  · decide

/-- C9 (amended): on a return/exception event the tracer drains the
remaining buffered output (the cursor moves to the end of the unchanged
buffer) and appends the increment to the most recently appended step's
output — appending to, not replacing, what is there; when no step exists
yet, the steps stay empty and the drained increment is recorded nowhere. -/
theorem c9_terminal_drain_amended (codeLines : List Str) (st : TracerState)
    (e : TraceEvent) (he : e = TraceEvent.ret ∨ e = TraceEvent.exc) :
    (tracer codeLines st e).buf.content = st.buf.content ∧
    (tracer codeLines st e).buf.pos = st.buf.content.length ∧
    (tracer codeLines st e).steps
      = appendToLastOutput st.steps (st.buf.content.drop st.buf.pos) ∧
    (st.steps ≠ [] → outputsConcat (tracer codeLines st e).steps
      = outputsConcat st.steps ++ st.buf.content.drop st.buf.pos) ∧
    (st.steps = [] → (tracer codeLines st e).steps = []) := by
  have hsteps : (tracer codeLines st e).steps
      = appendToLastOutput st.steps (st.buf.content.drop st.buf.pos) := by
    rcases he with h | h <;> subst h <;> rfl
  have hbuf : (tracer codeLines st e).buf
      = ⟨st.buf.content, st.buf.content.length⟩ := by
    rcases he with h | h <;> subst h <;> rfl
  refine ⟨by rw [hbuf], by rw [hbuf], hsteps, ?_, ?_⟩
  · intro h
    rw [hsteps]
    exact outputsConcat_appendToLastOutput _ _ h
  · intro h
    rw [hsteps, h]
    rfl

theorem c9_terminal_drain_amended_witness :
    (tracer [] ⟨[⟨1, [], [], none⟩], ⟨['x'], 0⟩⟩ TraceEvent.ret).buf.content
      = (⟨[⟨1, [], [], none⟩], ⟨['x'], 0⟩⟩ : TracerState).buf.content ∧
    (tracer [] ⟨[⟨1, [], [], none⟩], ⟨['x'], 0⟩⟩ TraceEvent.ret).buf.pos
      = (⟨[⟨1, [], [], none⟩], ⟨['x'], 0⟩⟩ :
          TracerState).buf.content.length ∧
    (tracer [] ⟨[⟨1, [], [], none⟩], ⟨['x'], 0⟩⟩ TraceEvent.ret).steps
      = appendToLastOutput (⟨[⟨1, [], [], none⟩], ⟨['x'], 0⟩⟩ :
          TracerState).steps
          ((⟨[⟨1, [], [], none⟩], ⟨['x'], 0⟩⟩ :
            TracerState).buf.content.drop
            (⟨[⟨1, [], [], none⟩], ⟨['x'], 0⟩⟩ : TracerState).buf.pos) ∧
    ((⟨[⟨1, [], [], none⟩], ⟨['x'], 0⟩⟩ : TracerState).steps ≠ [] →
      outputsConcat
          (tracer [] ⟨[⟨1, [], [], none⟩], ⟨['x'], 0⟩⟩ TraceEvent.ret).steps
        = outputsConcat (⟨[⟨1, [], [], none⟩], ⟨['x'], 0⟩⟩ :
            TracerState).steps
          ++ (⟨[⟨1, [], [], none⟩], ⟨['x'], 0⟩⟩ :
            TracerState).buf.content.drop
            (⟨[⟨1, [], [], none⟩], ⟨['x'], 0⟩⟩ : TracerState).buf.pos) ∧
    ((⟨[⟨1, [], [], none⟩], ⟨['x'], 0⟩⟩ : TracerState).steps = [] →
      (tracer [] ⟨[⟨1, [], [], none⟩], ⟨['x'], 0⟩⟩ TraceEvent.ret).steps
        = []) :=
  c9_terminal_drain_amended [] ⟨[⟨1, [], [], none⟩], ⟨['x'], 0⟩⟩
    TraceEvent.ret (Or.inl rfl)

/-- C10 counterexample: a recorded step's output can be the empty string
rather than None although no bytes were ever written: one line event
followed by the module return yields a single step whose output field is
the empty string. -/
theorem c10_empty_output_counterexample :
    writesOf [Action.ev (TraceEvent.line 1 []), Action.ev TraceEvent.ret]
      = [] ∧
    (run_in_process [] ⟨[Action.ev (TraceEvent.line 1 []),
        Action.ev TraceEvent.ret], none⟩).1.map (fun s => s.output)
      = [some []] :=
  ⟨rfl, rfl⟩

/-- C10 (amended): at the moment the tracer appends a step at a
line-boundary event, the step's output field is None exactly when the
pending increment is empty, and the increment string otherwise; only a
later return/exception event can turn a None output of the last step into
a (possibly empty) string. -/
theorem c10_step_output_amended (codeLines : List Str) (st : TracerState)
    (lineno : Int) (locals : List (String × Str)) :
    ∃ s : ExecutionStep,
      (tracer codeLines st (TraceEvent.line lineno locals)).steps
        = st.steps ++ [s] ∧
      s.output = (if st.buf.content.drop st.buf.pos = [] then none
        else some (st.buf.content.drop st.buf.pos)) :=
  ⟨_, rfl, rfl⟩

end CodeVis
